import Mathlib

/-
Verification of the auto-gardener expectation-matching and failure-range
inference engine.  The definitions below are a shallow embedding of the
TypeScript sources (main module, parse-results-json, parse-expectations,
functional-utils): classes become structures, methods become functions,
JavaScript Set objects become insertion-ordered duplicate-free lists, the
nullable types become Option, and thrown parse errors become Except.
-/

namespace Gardener

/-- The closed enumeration of test outcomes from the main module. -/
inductive TestOutcome where
  | NoData
  | Pass
  | Failure
  | Skip
  | WontFix
  | Timeout
  | ImageOnlyFailure
  | Slow
  | Crash
  | Missing
  | DumpJSConsoleLogInStdErr
deriving DecidableEq

/-- The platform build axis from the contexts module. -/
inductive BuildType where
  | Debug
  | Release
deriving DecidableEq

/-- A test context entry from the contexts module (the fields used by the engine). -/
structure TestContext where
  id : String
  botsPlatformName : String
  platform : String
  buildType : BuildType
  testExpectationPaths : List String
deriving DecidableEq

/-- A slash-separated test path, as in the Path class of the main module. -/
structure Path where
  entries : List String
deriving DecidableEq

/-- Loop body of Path.equalsOrContains: walk the entries of the first path;
any mismatch with the corresponding entry of the second path (including
running past its end, where the JS lookup yields undefined) returns false. -/
def entriesEqualOrContain : List String → List String → Bool
  | [], _ => true
  | _ :: _, [] => false
  | a :: as, b :: bs => a == b && entriesEqualOrContain as bs

/-- Path.equalsOrContains from the main module. -/
def Path.equalsOrContains (p other : Path) : Bool :=
  entriesEqualOrContain p.entries other.entries

/-- TestExpectation from the main module: one parsed expectation line. -/
structure TestExpectation where
  lineNo : Int
  testPath : Path
  bugIds : List Nat
  expectedOutcomes : List TestOutcome
  buildTypeConstraint : Option BuildType
deriving DecidableEq

/-- TestExpectation.matchesTest from the main module. -/
def TestExpectation.matchesTest (e : TestExpectation) (path : Path) (buildType : BuildType) : Bool :=
  e.testPath.equalsOrContains path &&
    (match e.buildTypeConstraint with
     | none => true
     | some c => c == buildType)

/-- TestExpectation.expectedOutcomesInclude from the main module: membership,
with Skip in the accepted set acting as a wildcard. -/
def TestExpectation.expectedOutcomesInclude (e : TestExpectation) (outcome : TestOutcome) : Bool :=
  e.expectedOutcomes.contains outcome || e.expectedOutcomes.contains TestOutcome.Skip

/-- One (revision, outcome) pair, the TestResult interface of the main module. -/
structure TestResult where
  webkitRevision : Nat
  outcome : TestOutcome
deriving DecidableEq

/-- TestHistory from the main module: per-test result history (most recent
first) plus the resolved expectation. -/
structure TestHistory where
  context : TestContext
  testPath : Path
  lastResults : List TestResult
  expectation : Option TestExpectation
deriving DecidableEq

/-- The BotsTestResults record of the main module. -/
structure BotsTestResults where
  context : TestContext
  webkitRevisions : List Nat
  testHistories : List TestHistory
deriving DecidableEq

/-- TestHistory.getTestResult: first stored result carrying the revision. -/
def TestHistory.getTestResult (h : TestHistory) (webkitRevision : Nat) : Option TestResult :=
  h.lastResults.find? (fun x => x.webkitRevision == webkitRevision)

/-- TestHistory.matchesExpectation from the main module: some true and some
false model the JS booleans, none models the JS null. -/
def TestHistory.matchesExpectation (h : TestHistory) (webkitRevision : Nat) : Option Bool :=
  match h.getTestResult webkitRevision with
  | none => none
  | some testResult =>
    if testResult.outcome == TestOutcome.NoData || testResult.outcome == TestOutcome.Skip then
      none
    else
      match h.expectation with
      | none => some (testResult.outcome == TestOutcome.Pass)
      | some e => some (e.expectedOutcomesInclude testResult.outcome)

/- Helper lemmas -/

theorem entriesEqualOrContain_iff (a b : List String) :
    entriesEqualOrContain a b = true ↔ a <+: b := by
  induction a generalizing b with
  | nil =>
    simp only [entriesEqualOrContain, true_iff]
    exact List.nil_prefix
  | cons x xs ih =>
    cases b with
    | nil =>
      simp [entriesEqualOrContain]
    | cons y ys =>
      simp [entriesEqualOrContain, List.cons_prefix_cons, ih]

/-- C5: Path.equalsOrContains A B is true iff the segment list of A is a
prefix of the segment list of B (equality included); in particular it is
false whenever A has more segments than B, and the empty path
equals-or-contains every path. -/
theorem path_equalsOrContains_spec :
    (∀ A B : Path, (A.equalsOrContains B = true ↔ A.entries <+: B.entries)) ∧
    (∀ A B : Path, A.entries.length > B.entries.length → A.equalsOrContains B = false) ∧
    (∀ B : Path, (Path.mk []).equalsOrContains B = true) := by
  refine ⟨?_, ?_, ?_⟩
  · intro A B
    exact entriesEqualOrContain_iff A.entries B.entries
  · intro A B hlen
    cases hEq : A.equalsOrContains B with
    | false => rfl
    | true =>
      exfalso
      have hpre : A.entries <+: B.entries := (entriesEqualOrContain_iff _ _).mp hEq
      have := hpre.length_le
      omega
  · intro B
    simp [Path.equalsOrContains, entriesEqualOrContain]

/-- C5 witness: the second conjunct instantiated at concrete paths. -/
theorem path_equalsOrContains_spec_witness :
    (Path.mk ["a", "b"]).equalsOrContains (Path.mk ["a"]) = false :=
  path_equalsOrContains_spec.2.1 (Path.mk ["a", "b"]) (Path.mk ["a"]) (by decide)

/-- C1: matchesExpectation returns null when the history holds no result for
the revision or the stored outcome is NoData or Skip, and only then;
otherwise, with no attached expectation it returns (outcome equals Pass), and
with one it returns true iff the outcome is in the accepted set or that set
contains Skip (the Skip wildcard). -/
theorem matchesExpectation_spec (h : TestHistory) (rev : Nat) :
    ((∀ tr ∈ h.lastResults, tr.webkitRevision ≠ rev) → h.matchesExpectation rev = none) ∧
    (∀ tr, h.getTestResult rev = some tr →
      ((tr.outcome = TestOutcome.NoData ∨ tr.outcome = TestOutcome.Skip) →
        h.matchesExpectation rev = none) ∧
      (tr.outcome ≠ TestOutcome.NoData → tr.outcome ≠ TestOutcome.Skip →
        ((h.expectation = none →
           h.matchesExpectation rev = some (tr.outcome == TestOutcome.Pass)) ∧
         (∀ e, h.expectation = some e →
           (h.matchesExpectation rev = some true ↔
             (tr.outcome ∈ e.expectedOutcomes ∨ TestOutcome.Skip ∈ e.expectedOutcomes)))))) ∧
    (h.matchesExpectation rev = none →
      (h.getTestResult rev = none ∨
       ∃ tr, h.getTestResult rev = some tr ∧
         (tr.outcome = TestOutcome.NoData ∨ tr.outcome = TestOutcome.Skip))) := by
  refine ⟨?_, ?_, ?_⟩
  · intro hnone
    have hfind : h.getTestResult rev = none := by
      apply List.find?_eq_none.mpr
      intro x hx
      simpa using hnone x hx
    simp [TestHistory.matchesExpectation, hfind]
  · intro tr htr
    refine ⟨?_, ?_⟩
    · intro hout
      rcases hout with hout | hout <;>
        simp [TestHistory.matchesExpectation, htr, hout]
    · intro hnd hsk
      have hcond :
          (tr.outcome == TestOutcome.NoData || tr.outcome == TestOutcome.Skip) = false := by
        simp [hnd, hsk]
      refine ⟨?_, ?_⟩
      · intro hexp
        simp [TestHistory.matchesExpectation, htr, hcond, hexp]
      · intro e hexp
        simp only [TestHistory.matchesExpectation, htr, hcond, Bool.false_eq_true,
          if_false, hexp]
        constructor
        · intro hres
          have : e.expectedOutcomesInclude tr.outcome = true := by
            simpa using hres
          simpa [TestExpectation.expectedOutcomesInclude] using this
        · intro hmem
          have : e.expectedOutcomesInclude tr.outcome = true := by
            simpa [TestExpectation.expectedOutcomesInclude] using hmem
          simp [this]
  · intro hres
    cases hfind : h.getTestResult rev with
    | none => exact Or.inl rfl
    | some tr =>
      refine Or.inr ⟨tr, rfl, ?_⟩
      by_contra hcon
      push_neg at hcon
      have hcond :
          (tr.outcome == TestOutcome.NoData || tr.outcome == TestOutcome.Skip) = false := by
        simp [hcon.1, hcon.2]
      rw [TestHistory.matchesExpectation, hfind] at hres
      simp only [hcond, Bool.false_eq_true, if_false] at hres
      cases hexp : h.expectation with
      | none => rw [hexp] at hres; simp at hres
      | some e => rw [hexp] at hres; simp at hres

/-- C1 witness: a concrete history where the latest outcome is Crash against
an expectation accepting only Failure. -/
theorem matchesExpectation_spec_witness :
    (TestHistory.mk
      (TestContext.mk "gtk-release" "GTK Linux 64-bit Release (Tests)" "gtk"
        BuildType.Release ["TestExpectations"])
      (Path.mk ["a", "b.html"])
      [TestResult.mk 10 TestOutcome.Crash]
      (some (TestExpectation.mk 1 (Path.mk ["a", "b.html"]) []
        [TestOutcome.Failure] none))).matchesExpectation 10 = some false := by
  have h := (matchesExpectation_spec
    (TestHistory.mk
      (TestContext.mk "gtk-release" "GTK Linux 64-bit Release (Tests)" "gtk"
        BuildType.Release ["TestExpectations"])
      (Path.mk ["a", "b.html"])
      [TestResult.mk 10 TestOutcome.Crash]
      (some (TestExpectation.mk 1 (Path.mk ["a", "b.html"]) []
        [TestOutcome.Failure] none))) 10).2.1
    (TestResult.mk 10 TestOutcome.Crash) (by decide)
  have h2 := (h.2 (by decide) (by decide)).2
    (TestExpectation.mk 1 (Path.mk ["a", "b.html"]) [] [TestOutcome.Failure] none) rfl
  cases hres : (TestHistory.mk
      (TestContext.mk "gtk-release" "GTK Linux 64-bit Release (Tests)" "gtk"
        BuildType.Release ["TestExpectations"])
      (Path.mk ["a", "b.html"])
      [TestResult.mk 10 TestOutcome.Crash]
      (some (TestExpectation.mk 1 (Path.mk ["a", "b.html"]) []
        [TestOutcome.Failure] none))).matchesExpectation 10 with
  | none => exact absurd hres (by decide)
  | some b =>
    cases b with
    | true =>
      rw [hres] at h2
      have := h2.mp rfl
      rcases this with hmem | hmem <;> simp at hmem
    | false => rfl

/-- Loop of maxBy from functional-utils: scan the items, replacing the
current maximum only on a strictly greater weight, so the first item of
maximal weight survives.  The accumulator none plays the role of the
firstItem flag. -/
def maxByGo {α : Type} (f : α → Nat) : List α → Option (α × Nat) → Option (α × Nat)
  | [], acc => acc
  | x :: rest, acc =>
    match acc with
    | none => maxByGo f rest (some (x, f x))
    | some (m, w) =>
      if f x > w then maxByGo f rest (some (x, f x)) else maxByGo f rest (some (m, w))

/-- maxBy from functional-utils, specialised to the Nat weights it is used
with (the JS version compares weights with the greater-than operator). -/
def maxBy {α : Type} (as : List α) (f : α → Nat) : Option α :=
  (maxByGo f as none).map Prod.fst

/-- findMostSpecificExpectation from parse-results-json: the matching
expectation with the most path segments. -/
def findMostSpecificExpectation (allExpectations : List TestExpectation)
    (testPath : Path) (buildType : BuildType) : Option TestExpectation :=
  maxBy (allExpectations.filter (fun e => e.matchesTest testPath buildType))
    (fun e => e.testPath.entries.length)

theorem maxByGo_spec {α : Type} (f : α → Nat) :
    ∀ (l : List α) (m : α), ∃ r,
      maxByGo f l (some (m, f m)) = some (r, f r) ∧
      ((r = m ∧ ∀ x ∈ l, f x ≤ f m) ∨
       (∃ l₁ l₂, l = l₁ ++ r :: l₂ ∧ f m < f r ∧
         (∀ x ∈ l₁, f x < f r) ∧ (∀ x ∈ l₂, f x ≤ f r))) := by
  intro l
  induction l with
  | nil =>
    intro m
    exact ⟨m, rfl, Or.inl ⟨rfl, by simp⟩⟩
  | cons x rest ih =>
    intro m
    by_cases hx : f x > f m
    · obtain ⟨r, hr, hcase⟩ := ih x
      refine ⟨r, ?_, ?_⟩
      · simpa [maxByGo, hx] using hr
      · rcases hcase with ⟨rfl, hall⟩ | ⟨l₁, l₂, heq, hlt, h₁, h₂⟩
        · exact Or.inr ⟨[], rest, by simp, hx, by simp, hall⟩
        · refine Or.inr ⟨x :: l₁, l₂, by simp [heq], lt_trans hx hlt, ?_, h₂⟩
          intro y hy
          rcases List.mem_cons.mp hy with rfl | hy
          · exact hlt
          · exact h₁ y hy
    · obtain ⟨r, hr, hcase⟩ := ih m
      refine ⟨r, ?_, ?_⟩
      · simpa [maxByGo, hx] using hr
      · have hxle : f x ≤ f m := Nat.le_of_not_lt hx
        rcases hcase with ⟨rfl, hall⟩ | ⟨l₁, l₂, heq, hlt, h₁, h₂⟩
        · refine Or.inl ⟨rfl, ?_⟩
          intro y hy
          rcases List.mem_cons.mp hy with rfl | hy
          · exact hxle
          · exact hall y hy
        · refine Or.inr ⟨x :: l₁, l₂, by simp [heq], hlt, ?_, h₂⟩
          intro y hy
          rcases List.mem_cons.mp hy with rfl | hy
          · exact Nat.lt_of_le_of_lt hxle hlt
          · exact h₁ y hy

theorem maxBy_eq_none_iff {α : Type} (as : List α) (f : α → Nat) :
    maxBy as f = none ↔ as = [] := by
  cases as with
  | nil => simp [maxBy, maxByGo]
  | cons x rest =>
    obtain ⟨r, hr, _⟩ := maxByGo_spec f rest x
    have hstep : maxBy (x :: rest) f = (maxByGo f rest (some (x, f x))).map Prod.fst := rfl
    simp [hstep, hr]

theorem maxBy_spec {α : Type} (as : List α) (f : α → Nat) (m : α)
    (hm : maxBy as f = some m) :
    m ∈ as ∧ (∀ x ∈ as, f x ≤ f m) ∧
    ∃ l₁ l₂, as = l₁ ++ m :: l₂ ∧ ∀ x ∈ l₁, f x < f m := by
  cases as with
  | nil => simp [maxBy, maxByGo] at hm
  | cons x rest =>
    obtain ⟨r, hr, hcase⟩ := maxByGo_spec f rest x
    have hstep : maxBy (x :: rest) f = (maxByGo f rest (some (x, f x))).map Prod.fst := rfl
    rw [hstep, hr] at hm
    simp only [Option.map_some'] at hm
    obtain rfl : r = m := by simpa using hm
    rcases hcase with ⟨rfl, hall⟩ | ⟨l₁, l₂, heq, hlt, h₁, h₂⟩
    · refine ⟨List.mem_cons_self _ _, ?_, [], rest, rfl, by simp⟩
      intro y hy
      rcases List.mem_cons.mp hy with rfl | hy
      · exact Nat.le_refl _
      · exact hall y hy
    · subst heq
      refine ⟨?_, ?_, x :: l₁, l₂, rfl, ?_⟩
      · simp
      · intro y hy
        rcases List.mem_cons.mp hy with rfl | hy
        · exact Nat.le_of_lt hlt
        · rcases List.mem_append.mp hy with hy | hy
          · exact Nat.le_of_lt (h₁ y hy)
          · rcases List.mem_cons.mp hy with rfl | hy
            · exact Nat.le_refl _
            · exact h₂ y hy
      · intro y hy
        rcases List.mem_cons.mp hy with rfl | hy
        · exact hlt
        · exact h₁ y hy

/-- A sample expectation covering the directory a. -/
def expectDirA : TestExpectation :=
  TestExpectation.mk 1 (Path.mk ["a"]) [] [TestOutcome.Pass] none

/-- A sample expectation covering the directory a/b. -/
def expectDirAB : TestExpectation :=
  TestExpectation.mk 2 (Path.mk ["a", "b"]) [] [TestOutcome.Pass] none

/-- C2: the resolver returns null exactly when no expectation matches;
otherwise it returns a matching expectation of maximal path segment count
that occurs before every other maximal match in the filtered input order,
and on the concrete overlapping example the deeper path wins. -/
theorem findMostSpecificExpectation_spec :
    (∀ (es : List TestExpectation) (path : Path) (bt : BuildType),
      (findMostSpecificExpectation es path bt = none ↔
        ∀ e ∈ es, e.matchesTest path bt = false) ∧
      (∀ m, findMostSpecificExpectation es path bt = some m →
        m ∈ es ∧ m.matchesTest path bt = true ∧
        (∀ e ∈ es, e.matchesTest path bt = true →
          e.testPath.entries.length ≤ m.testPath.entries.length) ∧
        (∃ l₁ l₂, es.filter (fun e => e.matchesTest path bt) = l₁ ++ m :: l₂ ∧
          ∀ e ∈ l₁, e.testPath.entries.length < m.testPath.entries.length))) ∧
    (findMostSpecificExpectation [expectDirA, expectDirAB]
        (Path.mk ["a", "b", "c"]) BuildType.Release = some expectDirAB ∧
     findMostSpecificExpectation [expectDirAB, expectDirA]
        (Path.mk ["a", "b", "c"]) BuildType.Release = some expectDirAB) := by
  refine ⟨?_, by decide, by decide⟩
  intro es path bt
  constructor
  · rw [findMostSpecificExpectation, maxBy_eq_none_iff]
    constructor
    · intro hnil e he
      have : e ∉ es.filter (fun e => e.matchesTest path bt) := by
        simp [hnil]
      by_contra hmt
      exact this (List.mem_filter.mpr ⟨he, by simpa using hmt⟩)
    · intro hall
      apply List.filter_eq_nil_iff.mpr
      intro e he
      simp [hall e he]
  · intro m hm
    rw [findMostSpecificExpectation] at hm
    obtain ⟨hmem, hmax, l₁, l₂, hdecomp, hfirst⟩ :=
      maxBy_spec (es.filter (fun e => e.matchesTest path bt))
        (fun e => e.testPath.entries.length) m hm
    obtain ⟨hmes, hmt⟩ := List.mem_filter.mp hmem
    refine ⟨hmes, hmt, ?_, l₁, l₂, hdecomp, hfirst⟩
    intro e he hmt'
    exact hmax e (List.mem_filter.mpr ⟨he, hmt'⟩)

/-- C2 witness: the resolver applied to the empty expectation list. -/
theorem findMostSpecificExpectation_spec_witness :
    findMostSpecificExpectation [] (Path.mk ["a"]) BuildType.Debug = none :=
  (findMostSpecificExpectation_spec.1 [] (Path.mk ["a"]) BuildType.Debug).1.mpr
    (by intro e he; simp at he)

/-- The RevisionRange union type of the main module.  In the range case the
start is an Option: none models the JS NaN that arises when the lookup for a
known revision below the failing one finds nothing (undefined), since NaN
arithmetic never produces a real start value. -/
inductive RevisionRange where
  | revision (rev : Nat)
  | range (start : Option Nat) (stop : Nat)
  | longAgo
  | neverFailed
deriving DecidableEq

/-- Shared tail of the failing branch of findFirstFailedRevisionRange: given
the last working revision (or none when the lookup found no known revision
below the failing one), report the exact revision on an immediate successor,
a bounded range otherwise.  The Nat subtraction agrees with the JS one here
because it is only compared against 1, and with none the JS NaN comparison
is false and the NaN start is carried into the range. -/
def reportRange : Option Nat → Nat → RevisionRange
  | some w, rev =>
    if rev - w == 1 then RevisionRange.revision rev
    else RevisionRange.range (some (w + 1)) rev
  | none, rev => RevisionRange.range none rev

/-- Loop of TestHistory.findFirstFailedRevisionRange from the main module,
walking the stored results from oldest to newest (the reversed lastResults)
while tracking the last revision that matched the expectation. -/
def findFirstFailedRevisionRangeGo (h : TestHistory) (revisions : List Nat) :
    Option Nat → List TestResult → RevisionRange
  | _, [] => RevisionRange.neverFailed
  | wasWorkingOnRevision, result :: rest =>
    match h.matchesExpectation result.webkitRevision with
    | some false =>
      match wasWorkingOnRevision with
      | none =>
        if h.lastResults.length ≥ revisions.length then
          RevisionRange.longAgo
        else
          reportRange
            (revisions.find? (fun rev => decide (rev < result.webkitRevision)))
            result.webkitRevision
      | some w => reportRange (some w) result.webkitRevision
    | some true =>
      findFirstFailedRevisionRangeGo h revisions (some result.webkitRevision) rest
    | none =>
      findFirstFailedRevisionRangeGo h revisions wasWorkingOnRevision rest

/-- TestHistory.findFirstFailedRevisionRange from the main module. -/
def TestHistory.findFirstFailedRevisionRange (h : TestHistory)
    (botTestResults : BotsTestResults) : RevisionRange :=
  findFirstFailedRevisionRangeGo h botTestResults.webkitRevisions none h.lastResults.reverse

/-- The static TestHistory.formatRevisionRangeString from the main module. -/
def TestHistory.formatRevisionRangeString : RevisionRange → String
  | RevisionRange.longAgo => "long ago"
  | RevisionRange.neverFailed => "never failed"
  | RevisionRange.revision rev => "r" ++ toString rev
  | RevisionRange.range (some s) e => "r" ++ toString s ++ "-" ++ toString e
  | RevisionRange.range none e => "rNaN-" ++ toString e

/-- TestHistory.findFirstPassingRevisionAfter from the main module: oldest
to newest, the first stored revision above the given one that matches. -/
def TestHistory.findFirstPassingRevisionAfter (h : TestHistory)
    (firstKnownFailedRevision : Nat) : Option Nat :=
  (h.lastResults.reverse.find? (fun result =>
    decide (result.webkitRevision > firstKnownFailedRevision) &&
      (h.matchesExpectation result.webkitRevision == some true))).map
    TestResult.webkitRevision

/-- TestHistory.isRevisionOld from the main module: compare against the
revision sitting at three quarters of the revision window; indexing past the
end of the window yields undefined in JS and the comparison is then false. -/
def TestHistory.isRevisionOld (_h : TestHistory) (botTestResults : BotsTestResults)
    (revision : Nat) : Bool :=
  match botTestResults.webkitRevisions.get?
      (botTestResults.webkitRevisions.length * 3 / 4) with
  | some cutOffRevision => decide (revision < cutOffRevision)
  | none => false

/-- Body of TestHistory.constructFirstFailedRevisionMessage on a range or
revision result, with firstKnownFailedRevision already extracted.  The check
against zero mirrors the JS truthiness test on the found passing revision. -/
def constructMessageCore (h : TestHistory) (botTestResults : BotsTestResults)
    (firstFailedRange : RevisionRange) (firstKnownFailedRevision : Nat) : String :=
  match h.findFirstPassingRevisionAfter firstKnownFailedRevision with
  | none => "Failing since " ++ TestHistory.formatRevisionRangeString firstFailedRange
  | some firstPassAfterwards =>
    if firstPassAfterwards == 0 then
      "Failing since " ++ TestHistory.formatRevisionRangeString firstFailedRange
    else if h.isRevisionOld botTestResults firstKnownFailedRevision &&
        h.isRevisionOld botTestResults firstPassAfterwards then
      "Flaky since long ago"
    else
      "Flaky since r" ++ toString firstKnownFailedRevision ++ " or earlier"

/-- TestHistory.constructFirstFailedRevisionMessage from the main module:
none on the string-valued ranges, otherwise the flaky/failing diagnosis. -/
def TestHistory.constructFirstFailedRevisionMessage (h : TestHistory)
    (botTestResults : BotsTestResults) : Option String :=
  match h.findFirstFailedRevisionRange botTestResults with
  | RevisionRange.longAgo => none
  | RevisionRange.neverFailed => none
  | RevisionRange.revision r =>
    some (constructMessageCore h botTestResults (RevisionRange.revision r) r)
  | RevisionRange.range s e =>
    some (constructMessageCore h botTestResults (RevisionRange.range s e) e)

/-- The first known failed revision carried by a range result: the revision
itself, or the end of a bounded range. -/
def firstKnownFailedRevisionOf : RevisionRange → Option Nat
  | RevisionRange.revision r => some r
  | RevisionRange.range _ e => some e
  | _ => none

/-- A build context shared by the concrete sample inputs below. -/
def sampleContext : TestContext :=
  TestContext.mk "gtk-release" "GTK Linux 64-bit Release (Tests)" "gtk"
    BuildType.Release ["TestExpectations"]

/-- Sample history for C4: Fail at r10 and r9, Pass at r5, no expectation. -/
def historyGapExample : TestHistory :=
  TestHistory.mk sampleContext (Path.mk ["a", "b.html"])
    [TestResult.mk 10 TestOutcome.Failure, TestResult.mk 9 TestOutcome.Failure,
     TestResult.mk 5 TestOutcome.Pass] none

/-- Sample results collection for C4 with the r6 to r8 window gap. -/
def botsGapExample : BotsTestResults :=
  BotsTestResults.mk sampleContext [10, 9, 5] [historyGapExample]

/-- Sample history for C3: a single failing result, shorter than the window. -/
def historyShortExample : TestHistory :=
  TestHistory.mk sampleContext (Path.mk ["c", "d.html"])
    [TestResult.mk 10 TestOutcome.Failure] none

/-- Sample results collection for C3 whose window skips from r10 to r5. -/
def botsShortExample : BotsTestResults :=
  BotsTestResults.mk sampleContext [10, 5] [historyShortExample]

/-- C4 counterexample: on results Fail at r10, Fail at r9, Pass at r5 with
no expectation, the function does not return the range from 6 to 10 the
claim states: the scan stops at the oldest failing revision r9. -/
theorem findFirstFailedRevisionRange_gap_counterexample :
    ¬ historyGapExample.findFirstFailedRevisionRange botsGapExample =
      RevisionRange.range (some 6) 10 := by
  decide

/-- C4 amended: on that input the function returns the range from 6 to 9,
ending at the oldest failing revision found in the oldest-to-newest scan. -/
theorem findFirstFailedRevisionRange_gap_amended :
    historyGapExample.findFirstFailedRevisionRange botsGapExample =
      RevisionRange.range (some 6) 9 := by
  decide

/-- Skipping results without a usable signal leaves the scan state unchanged. -/
theorem findFirstFailedRevisionRangeGo_skip (h : TestHistory) (revs : List Nat)
    (w : Option Nat) (pre rl : List TestResult)
    (hpre : ∀ x ∈ pre, h.matchesExpectation x.webkitRevision = none) :
    findFirstFailedRevisionRangeGo h revs w (pre ++ rl) =
      findFirstFailedRevisionRangeGo h revs w rl := by
  induction pre with
  | nil => rfl
  | cons x pre ih =>
    have hx : h.matchesExpectation x.webkitRevision = none :=
      hpre x (List.mem_cons_self _ _)
    have hrest : ∀ y ∈ pre, h.matchesExpectation y.webkitRevision = none :=
      fun y hy => hpre y (List.mem_cons_of_mem _ hy)
    rw [List.cons_append]
    simp only [findFirstFailedRevisionRangeGo, hx]
    exact ih hrest

/-- C3 counterexample: the very first usable signal is a failure and the
stored history is shorter than the known revision window, yet the function
returns a bounded range instead of exactly the failing revision number. -/
theorem findFirstFailedRevisionRange_short_counterexample :
    historyShortExample.lastResults.length <
      botsShortExample.webkitRevisions.length ∧
    ¬ historyShortExample.findFirstFailedRevisionRange botsShortExample =
      RevisionRange.revision 10 ∧
    historyShortExample.findFirstFailedRevisionRange botsShortExample =
      RevisionRange.range (some 6) 10 := by
  refine ⟨by decide, by decide, by decide⟩

/-- C3 amended: when the first usable signal of the oldest-to-newest scan is
already a failing match, the function returns long ago if the stored history
is at least as long as the known revision window; otherwise it takes as last
good revision the first known revision strictly below the failing one and
returns the failing revision itself when that is its immediate predecessor,
and the bounded range from last good plus one up to the failing revision
otherwise (with an undefined start when no known revision lies below). -/
theorem findFirstFailedRevisionRange_firstSignalFailing (h : TestHistory)
    (bot : BotsTestResults) (pre : List TestResult) (r : TestResult)
    (rest : List TestResult)
    (hsplit : h.lastResults.reverse = pre ++ r :: rest)
    (hpre : ∀ x ∈ pre, h.matchesExpectation x.webkitRevision = none)
    (hr : h.matchesExpectation r.webkitRevision = some false) :
    (h.lastResults.length ≥ bot.webkitRevisions.length →
      h.findFirstFailedRevisionRange bot = RevisionRange.longAgo) ∧
    (h.lastResults.length < bot.webkitRevisions.length →
      h.findFirstFailedRevisionRange bot =
        reportRange
          (bot.webkitRevisions.find? (fun rev => decide (rev < r.webkitRevision)))
          r.webkitRevision) := by
  have hstep : h.findFirstFailedRevisionRange bot =
      if h.lastResults.length ≥ bot.webkitRevisions.length then
        RevisionRange.longAgo
      else
        reportRange
          (bot.webkitRevisions.find? (fun rev => decide (rev < r.webkitRevision)))
          r.webkitRevision := by
    rw [TestHistory.findFirstFailedRevisionRange, hsplit,
      findFirstFailedRevisionRangeGo_skip h bot.webkitRevisions none pre (r :: rest) hpre]
    simp only [findFirstFailedRevisionRangeGo, hr]
  constructor
  · intro hge
    rw [hstep, if_pos hge]
  · intro hlt
    rw [hstep, if_neg (Nat.not_le.mpr hlt)]

/-- C3 witness: the amended statement applied to the short sample history. -/
theorem findFirstFailedRevisionRange_firstSignalFailing_witness :
    historyShortExample.findFirstFailedRevisionRange botsShortExample =
      reportRange
        (botsShortExample.webkitRevisions.find? (fun rev => decide (rev < 10)))
        10 :=
  (findFirstFailedRevisionRange_firstSignalFailing historyShortExample
    botsShortExample [] (TestResult.mk 10 TestOutcome.Failure) []
    (by decide) (by intro x hx; simp at hx) (by decide)).2 (by decide)

/-- In a strictly increasing chain, the head is below every later element. -/
theorem chain'_lt_all {α : Type} (g : α → Nat) :
    ∀ (l : List α) (x : α),
      List.Chain' (fun a b => g a < g b) (x :: l) → ∀ y ∈ l, g x < g y := by
  intro l
  induction l with
  | nil =>
    intro x _ y hy
    simp at hy
  | cons z rest ih =>
    intro x hch y hy
    have hxz : g x < g z := (List.chain'_cons.mp hch).1
    have hch' : List.Chain' (fun a b => g a < g b) (z :: rest) :=
      (List.chain'_cons.mp hch).2
    rcases List.mem_cons.mp hy with rfl | hy
    · exact hxz
    · exact Nat.lt_trans hxz (ih z hch' y hy)

/-- When the stored revisions are a proper prefix of the strictly decreasing
window, every stored revision has a strictly smaller known revision below it. -/
theorem exists_lt_of_strict_prefix :
    ∀ (results : List TestResult) (revs : List Nat),
      List.Chain' (fun a b : Nat => a > b) revs →
      results.map TestResult.webkitRevision <+: revs →
      results.length < revs.length →
      ∀ r ∈ results, ∃ b ∈ revs, b < r.webkitRevision := by
  intro results
  induction results with
  | nil =>
    intro revs _ _ _ r hr
    simp at hr
  | cons x rs ih =>
    intro revs hchain hpre hlen r hr
    obtain ⟨t, ht⟩ := hpre
    have hrevs : revs = x.webkitRevision :: (rs.map TestResult.webkitRevision ++ t) := by
      simpa using ht.symm
    subst hrevs
    rcases List.mem_cons.mp hr with rfl | hr
    · have hlen' : 0 < (rs.map TestResult.webkitRevision ++ t).length := by
        simp only [List.length_cons] at hlen
        omega
      cases hcons : rs.map TestResult.webkitRevision ++ t with
      | nil => rw [hcons] at hlen'; simp at hlen'
      | cons c cs =>
        rw [hcons] at hchain
        have hxc : r.webkitRevision > c := (List.chain'_cons.mp hchain).1
        exact ⟨c, List.mem_cons_of_mem _ (List.mem_cons_self _ _), hxc⟩
    · have hchain' : List.Chain' (fun a b : Nat => a > b)
          (rs.map TestResult.webkitRevision ++ t) := hchain.tail
      have hpre' : rs.map TestResult.webkitRevision <+:
          rs.map TestResult.webkitRevision ++ t := ⟨t, rfl⟩
      have hlen'' : rs.length < (rs.map TestResult.webkitRevision ++ t).length := by
        simp only [List.length_cons] at hlen
        omega
      obtain ⟨b, hb, hblt⟩ := ih _ hchain' hpre' hlen'' r hr
      exact ⟨b, List.mem_cons_of_mem _ hb, hblt⟩

/-- A bounded range produced by reportRange from a known last good revision
below the failing one has a defined start strictly below its end. -/
theorem reportRange_range_lt (w rev : Nat) (hw : w < rev) :
    ∀ s e, reportRange (some w) rev = RevisionRange.range s e →
      ∃ s', s = some s' ∧ s' < e := by
  intro s e hgo
  simp only [reportRange] at hgo
  by_cases hone : (rev - w == 1) = true
  · rw [if_pos hone] at hgo
    exact RevisionRange.noConfusion hgo
  · rw [if_neg hone] at hgo
    have h1 : rev - w ≠ 1 := by simpa using hone
    obtain ⟨hs, he⟩ := RevisionRange.range.inj hgo
    exact ⟨w + 1, hs.symm, by omega⟩

/-- Scan invariant for C9: with a strictly decreasing window, prefix-aligned
stored results, and a last good revision below everything still to scan, a
range result always has a defined start strictly below its end. -/
theorem findFirstFailedRevisionRangeGo_range_lt (h : TestHistory)
    (bot : BotsTestResults)
    (hchain : List.Chain' (fun a b : Nat => a > b) bot.webkitRevisions)
    (hpre : h.lastResults.map TestResult.webkitRevision <+: bot.webkitRevisions) :
    ∀ rl : List TestResult, rl <:+ h.lastResults.reverse →
      ∀ w : Option Nat, (∀ ww, w = some ww → ∀ x ∈ rl, ww < x.webkitRevision) →
        ∀ s e, findFirstFailedRevisionRangeGo h bot.webkitRevisions w rl =
            RevisionRange.range s e →
          ∃ s', s = some s' ∧ s' < e := by
  have hchain1 : List.Chain' (fun a b : Nat => a > b)
      (h.lastResults.map TestResult.webkitRevision) := hchain.prefix hpre
  have hchain2 : List.Chain'
      (fun a b : TestResult => a.webkitRevision > b.webkitRevision)
      h.lastResults := (List.chain'_map TestResult.webkitRevision).mp hchain1
  have hchainRes : List.Chain'
      (fun a b : TestResult => a.webkitRevision < b.webkitRevision)
      h.lastResults.reverse := List.chain'_reverse.mpr hchain2
  intro rl
  induction rl with
  | nil =>
    intro _ w _ s e hgo
    simp [findFirstFailedRevisionRangeGo] at hgo
  | cons r rest ih =>
    intro hsuf w hw s e hgo
    have hsuf' : rest <:+ h.lastResults.reverse :=
      (List.suffix_cons r rest).trans hsuf
    cases hm : h.matchesExpectation r.webkitRevision with
    | none =>
      simp only [findFirstFailedRevisionRangeGo, hm] at hgo
      refine ih hsuf' w ?_ s e hgo
      intro ww hww x hx
      exact hw ww hww x (List.mem_cons_of_mem _ hx)
    | some b =>
      cases b with
      | true =>
        simp only [findFirstFailedRevisionRangeGo, hm] at hgo
        refine ih hsuf' (some r.webkitRevision) ?_ s e hgo
        intro ww hww x hx
        obtain rfl : r.webkitRevision = ww := Option.some.inj hww
        have hch : List.Chain'
            (fun a b : TestResult => a.webkitRevision < b.webkitRevision)
            (r :: rest) := hchainRes.suffix hsuf
        exact chain'_lt_all TestResult.webkitRevision rest r hch x hx
      | false =>
        simp only [findFirstFailedRevisionRangeGo, hm] at hgo
        cases w with
        | some ww =>
          have hlt : ww < r.webkitRevision :=
            hw ww rfl r (List.mem_cons_self _ _)
          exact reportRange_range_lt ww r.webkitRevision hlt s e hgo
        | none =>
          by_cases hlen : h.lastResults.length ≥ bot.webkitRevisions.length
          · rw [if_pos hlen] at hgo
            exact RevisionRange.noConfusion hgo
          · rw [if_neg hlen] at hgo
            have hlen' : h.lastResults.length < bot.webkitRevisions.length :=
              Nat.lt_of_not_le hlen
            have hrmem : r ∈ h.lastResults :=
              List.mem_reverse.mp (hsuf.subset (List.mem_cons_self r rest))
            obtain ⟨bb, hbmem, hblt⟩ := exists_lt_of_strict_prefix h.lastResults
              bot.webkitRevisions hchain hpre hlen' r hrmem
            cases hf : bot.webkitRevisions.find?
                (fun rev => decide (rev < r.webkitRevision)) with
            | none =>
              exact absurd hblt (by simpa using List.find?_eq_none.mp hf bb hbmem)
            | some g =>
              rw [hf] at hgo
              have hg : g < r.webkitRevision := by simpa using List.find?_some hf
              exact reportRange_range_lt g r.webkitRevision hg s e hgo

/-- C9: for a history whose stored results are what the loader constructs
from the strictly decreasing known revision window (their revisions form a
prefix of the window), a range result of findFirstFailedRevisionRange always
has a defined start strictly below its end: it never collapses or inverts. -/
theorem findFirstFailedRevisionRange_range_ordered (h : TestHistory)
    (bot : BotsTestResults)
    (hchain : List.Chain' (fun a b : Nat => a > b) bot.webkitRevisions)
    (hpre : h.lastResults.map TestResult.webkitRevision <+: bot.webkitRevisions)
    (s : Option Nat) (e : Nat)
    (hrange : h.findFirstFailedRevisionRange bot = RevisionRange.range s e) :
    ∃ s', s = some s' ∧ s' < e :=
  findFirstFailedRevisionRangeGo_range_lt h bot hchain hpre
    h.lastResults.reverse (List.suffix_refl _) none
    (fun _ hww => Option.noConfusion hww) s e hrange

/-- Sample history for C9: Fail at r9 after Pass at r5, window r9, r5, r4. -/
def historyRangeExample : TestHistory :=
  TestHistory.mk sampleContext (Path.mk ["g", "h.html"])
    [TestResult.mk 9 TestOutcome.Failure, TestResult.mk 5 TestOutcome.Pass] none

/-- Sample results collection for C9. -/
def botsRangeExample : BotsTestResults :=
  BotsTestResults.mk sampleContext [9, 5, 4] [historyRangeExample]

/-- C9 witness: the ordering statement applied to a concrete range result. -/
theorem findFirstFailedRevisionRange_range_ordered_witness :
    ∃ s', (some 6 : Option Nat) = some s' ∧ s' < 9 :=
  findFirstFailedRevisionRange_range_ordered historyRangeExample botsRangeExample
    (by norm_num [botsRangeExample, List.chain'_cons]) (by decide) (some 6) 9 (by decide)

/-- Sample history for C7: Pass at r10, Fail at r9, Pass at r5 (flaky). -/
def historyFlakyExample : TestHistory :=
  TestHistory.mk sampleContext (Path.mk ["e", "f.html"])
    [TestResult.mk 10 TestOutcome.Pass, TestResult.mk 9 TestOutcome.Failure,
     TestResult.mk 5 TestOutcome.Pass] none

/-- Sample results collection for C7. -/
def botsFlakyExample : BotsTestResults :=
  BotsTestResults.mk sampleContext [10, 9, 5] [historyFlakyExample]

/-- C7 counterexample: a flaky test that is not old produces the message
with the suffix or earlier naming only the end revision, not the message
built from the first-failure range the claim states. -/
theorem constructFirstFailedRevisionMessage_counterexample :
    historyFlakyExample.constructFirstFailedRevisionMessage botsFlakyExample =
      some "Flaky since r9 or earlier" ∧
    historyFlakyExample.findFirstFailedRevisionRange botsFlakyExample =
      RevisionRange.range (some 6) 9 ∧
    ¬ historyFlakyExample.constructFirstFailedRevisionMessage botsFlakyExample =
      some ("Flaky since " ++ TestHistory.formatRevisionRangeString
        (RevisionRange.range (some 6) 9)) := by
  refine ⟨by decide, by decide, by decide⟩

/-- Case analysis of constructMessageCore: no later pass gives the failing
message with the full range, a later nonzero pass gives the flaky messages. -/
theorem constructMessageCore_cases (h : TestHistory) (bot : BotsTestResults)
    (fr : RevisionRange) (k : Nat) :
    (h.findFirstPassingRevisionAfter k = none →
      constructMessageCore h bot fr k =
        "Failing since " ++ TestHistory.formatRevisionRangeString fr) ∧
    (∀ p, h.findFirstPassingRevisionAfter k = some p → p ≠ 0 →
      (((h.isRevisionOld bot k && h.isRevisionOld bot p) = true →
        constructMessageCore h bot fr k = "Flaky since long ago") ∧
       ((h.isRevisionOld bot k && h.isRevisionOld bot p) = false →
        constructMessageCore h bot fr k =
          "Flaky since r" ++ toString k ++ " or earlier"))) := by
  cases hp : h.findFirstPassingRevisionAfter k with
  | none =>
    constructor
    · intro _
      simp [constructMessageCore, hp]
    · intro p hp2 _
      exact Option.noConfusion hp2
  | some p0 =>
    constructor
    · intro hnone
      exact Option.noConfusion hnone
    · intro p hp2 hpne
      obtain rfl : p0 = p := Option.some.inj hp2
      constructor
      · intro hold
        simp [constructMessageCore, hp, hpne, hold]
      · intro hold
        simp [constructMessageCore, hp, hpne, hold]

/-- C7 amended: given a range or point result, with no later matching
revision the message is Failing since the formatted range; with one, if both
the failure point and the first later pass are old the message is Flaky
since long ago, and otherwise it is Flaky since r followed by the first
known failed revision and the words or earlier (not the formatted range). -/
theorem constructFirstFailedRevisionMessage_amended (h : TestHistory)
    (bot : BotsTestResults) (k : Nat)
    (hk : firstKnownFailedRevisionOf (h.findFirstFailedRevisionRange bot) = some k) :
    (h.findFirstPassingRevisionAfter k = none →
      h.constructFirstFailedRevisionMessage bot =
        some ("Failing since " ++ TestHistory.formatRevisionRangeString
          (h.findFirstFailedRevisionRange bot))) ∧
    (∀ p, h.findFirstPassingRevisionAfter k = some p → p ≠ 0 →
      (((h.isRevisionOld bot k && h.isRevisionOld bot p) = true →
        h.constructFirstFailedRevisionMessage bot = some "Flaky since long ago") ∧
       ((h.isRevisionOld bot k && h.isRevisionOld bot p) = false →
        h.constructFirstFailedRevisionMessage bot =
          some ("Flaky since r" ++ toString k ++ " or earlier")))) := by
  cases hfr : h.findFirstFailedRevisionRange bot with
  | longAgo =>
    rw [hfr] at hk
    simp [firstKnownFailedRevisionOf] at hk
  | neverFailed =>
    rw [hfr] at hk
    simp [firstKnownFailedRevisionOf] at hk
  | revision r =>
    rw [hfr] at hk
    obtain rfl : r = k := by simpa [firstKnownFailedRevisionOf] using hk
    have hmsg : h.constructFirstFailedRevisionMessage bot =
        some (constructMessageCore h bot (RevisionRange.revision r) r) := by
      simp only [TestHistory.constructFirstFailedRevisionMessage, hfr]
    have hcore := constructMessageCore_cases h bot (RevisionRange.revision r) r
    rw [hmsg]
    constructor
    · intro hnone
      rw [hcore.1 hnone]
    · intro p hp2 hpne
      have h2 := hcore.2 p hp2 hpne
      exact ⟨fun hold => by rw [h2.1 hold], fun hold => by rw [h2.2 hold]⟩
  | range s e =>
    rw [hfr] at hk
    obtain rfl : e = k := by simpa [firstKnownFailedRevisionOf] using hk
    have hmsg : h.constructFirstFailedRevisionMessage bot =
        some (constructMessageCore h bot (RevisionRange.range s e) e) := by
      simp only [TestHistory.constructFirstFailedRevisionMessage, hfr]
    have hcore := constructMessageCore_cases h bot (RevisionRange.range s e) e
    rw [hmsg]
    constructor
    · intro hnone
      rw [hcore.1 hnone]
    · intro p hp2 hpne
      have h2 := hcore.2 p hp2 hpne
      exact ⟨fun hold => by rw [h2.1 hold], fun hold => by rw [h2.2 hold]⟩

/-- C7 witness: the amended statement applied to the flaky sample. -/
theorem constructFirstFailedRevisionMessage_amended_witness :
    historyFlakyExample.constructFirstFailedRevisionMessage botsFlakyExample =
      some ("Flaky since r" ++ toString (9 : Nat) ++ " or earlier") :=
  ((constructFirstFailedRevisionMessage_amended historyFlakyExample
      botsFlakyExample 9 (by decide)).2 10 (by decide) (by decide)).2 (by decide)

/-- The selection performed by findTestsWithInvalidExpectations in the main
module: the histories whose match status at the latest known revision is
strictly the boolean false.  The terminal report printing around it is pure
output and is omitted; with an empty revision window the JS latest revision
is undefined, every match status is null, and the selection is empty. -/
def findTestsWithInvalidExpectations (botTestsResults : BotsTestResults) :
    List TestHistory :=
  match botTestsResults.webkitRevisions with
  | [] => []
  | latestRevision :: _ =>
    botTestsResults.testHistories.filter
      (fun history => history.matchesExpectation latestRevision == some false)

/-- C10: the deviating set contains exactly the histories whose match status
at the latest (first) known revision is false; a history with status true or
null there is never included. -/
theorem findTestsWithInvalidExpectations_spec (bot : BotsTestResults)
    (latest : Nat) (rest : List Nat) (hrevs : bot.webkitRevisions = latest :: rest)
    (h : TestHistory) :
    h ∈ findTestsWithInvalidExpectations bot ↔
      (h ∈ bot.testHistories ∧ h.matchesExpectation latest = some false) := by
  simp [findTestsWithInvalidExpectations, hrevs, List.mem_filter]

/-- Sample history for C10: a single Crash result at the latest revision. -/
def historyDeviationExample : TestHistory :=
  TestHistory.mk sampleContext (Path.mk ["i", "j.html"])
    [TestResult.mk 7 TestOutcome.Crash] none

/-- Sample results collection for C10. -/
def botsDeviationExample : BotsTestResults :=
  BotsTestResults.mk sampleContext [7] [historyDeviationExample]

/-- C10 witness: the membership characterisation at a concrete collection. -/
theorem findTestsWithInvalidExpectations_spec_witness :
    historyDeviationExample ∈ findTestsWithInvalidExpectations botsDeviationExample ↔
      (historyDeviationExample ∈ botsDeviationExample.testHistories ∧
       historyDeviationExample.matchesExpectation 7 = some false) :=
  findTestsWithInvalidExpectations_spec botsDeviationExample 7 [] rfl
    historyDeviationExample

/-- The index set built by the backwards loop of cleanDuplicateBuilds: the
loop walks oldest to newest carrying the previously seen (older) revision,
so index i is marked exactly when the revision at i equals the one at i+1. -/
def shouldRemoveIndex (webkitRevisions : List Nat) (i : Nat) : Bool :=
  match webkitRevisions[i]?, webkitRevisions[i + 1]? with
  | some current, some older => current == older
  | _, _ => false

/-- The indexed filter of cleanDuplicateBuilds: keep the elements whose
position is not in the removal set. -/
def filterOutIndices {α : Type} (toRemove : Nat → Bool) : Nat → List α → List α
  | _, [] => []
  | i, x :: rest =>
    if toRemove i then filterOutIndices toRemove (i + 1) rest
    else x :: filterOutIndices toRemove (i + 1) rest

/-- cleanDuplicateBuilds from parse-results-json: drop the marked slots from
the revision list and from the result sequence of every history (the JS
version mutates in place; here the cleaned pair is returned). -/
def cleanDuplicateBuilds (webkitRevisions : List Nat)
    (collectedTestHistories : List TestHistory) : List Nat × List TestHistory :=
  (filterOutIndices (shouldRemoveIndex webkitRevisions) 0 webkitRevisions,
   collectedTestHistories.map (fun h =>
     TestHistory.mk h.context h.testPath
       (filterOutIndices (shouldRemoveIndex webkitRevisions) 0 h.lastResults)
       h.expectation))

/-- Modelled on the claim wording for comparison: collapse every run of
consecutive equal revisions to a single entry, dropping the newer (earlier)
occurrences and keeping the oldest. -/
def dedupConsecutiveSpec : List Nat → List Nat
  | [] => []
  | [x] => [x]
  | x :: y :: rest =>
    if x = y then dedupConsecutiveSpec (y :: rest)
    else x :: dedupConsecutiveSpec (y :: rest)

theorem getElemOpt_eq_drop_head {α : Type} :
    ∀ (full : List α) (i : Nat), full[i]? = (full.drop i).head? := by
  intro full
  induction full with
  | nil =>
    intro i
    simp
  | cons a l ih =>
    intro i
    cases i with
    | zero => simp
    | succ j =>
      simp only [List.getElem?_cons_succ, List.drop_succ_cons]
      exact ih j

theorem drop_succ_of_drop_cons {α : Type} (full : List α) (i : Nat) (x : α)
    (rest : List α) (h : full.drop i = x :: rest) : full.drop (i + 1) = rest := by
  have h2 : (full.drop i).drop 1 = rest := by rw [h]; simp
  rw [List.drop_drop] at h2
  exact h2

theorem filterOutIndices_drop_eq (full : List Nat) :
    ∀ (l : List Nat) (i : Nat), full.drop i = l →
      filterOutIndices (shouldRemoveIndex full) i l = dedupConsecutiveSpec l := by
  intro l
  induction l with
  | nil =>
    intro i _
    rfl
  | cons x rest ih =>
    intro i hdrop
    have hget : full[i]? = some x := by
      rw [getElemOpt_eq_drop_head, hdrop]
      rfl
    have hdrop1 : full.drop (i + 1) = rest := drop_succ_of_drop_cons full i x rest hdrop
    cases rest with
    | nil =>
      have hget1 : full[i + 1]? = none := by
        rw [getElemOpt_eq_drop_head, hdrop1]
        rfl
      have hsr : shouldRemoveIndex full i = false := by
        simp [shouldRemoveIndex, hget, hget1]
      simp [filterOutIndices, hsr, dedupConsecutiveSpec]
    | cons y rest' =>
      have hget1 : full[i + 1]? = some y := by
        rw [getElemOpt_eq_drop_head, hdrop1]
        rfl
      have hsr : shouldRemoveIndex full i = (x == y) := by
        simp [shouldRemoveIndex, hget, hget1]
      have hrec := ih (i + 1) hdrop1
      by_cases hxy : x = y
      · have hsr' : shouldRemoveIndex full i = true := by simp [hsr, hxy]
        have hd : dedupConsecutiveSpec (x :: y :: rest') =
            dedupConsecutiveSpec (y :: rest') := by
          simp [dedupConsecutiveSpec, hxy]
        rw [hd, ← hrec]
        conv_lhs => rw [filterOutIndices]
        rw [hsr']
        simp
      · have hsr' : shouldRemoveIndex full i = false := by simp [hsr, hxy]
        have hd : dedupConsecutiveSpec (x :: y :: rest') =
            x :: dedupConsecutiveSpec (y :: rest') := by
          simp [dedupConsecutiveSpec, hxy]
        rw [hd, ← hrec]
        conv_lhs => rw [filterOutIndices]
        rw [hsr']
        simp

theorem dedupConsecutiveSpec_head (rest : List Nat) :
    ∀ y : Nat, ∃ t, dedupConsecutiveSpec (y :: rest) = y :: t := by
  induction rest with
  | nil =>
    intro y
    exact ⟨[], rfl⟩
  | cons z rest' ih =>
    intro y
    by_cases hyz : y = z
    · obtain ⟨t, ht⟩ := ih z
      subst hyz
      exact ⟨t, by simp [dedupConsecutiveSpec, ht]⟩
    · exact ⟨dedupConsecutiveSpec (z :: rest'), by simp [dedupConsecutiveSpec, hyz]⟩

theorem dedupConsecutiveSpec_chain :
    ∀ l : List Nat, List.Chain' (fun a b : Nat => a ≠ b) (dedupConsecutiveSpec l) := by
  intro l
  induction l with
  | nil => simp [dedupConsecutiveSpec]
  | cons x rest ih =>
    cases rest with
    | nil => simp [dedupConsecutiveSpec]
    | cons y rest' =>
      by_cases hxy : x = y
      · simpa [dedupConsecutiveSpec, hxy] using ih
      · obtain ⟨t, ht⟩ := dedupConsecutiveSpec_head rest' y
        have ih' : List.Chain' (fun a b : Nat => a ≠ b) (y :: t) := ht ▸ ih
        simp only [dedupConsecutiveSpec, if_neg hxy, ht]
        exact List.chain'_cons.mpr ⟨hxy, ih'⟩

theorem filterOutIndices_map_isPrefixOf {α : Type} (f : α → Nat) (p : Nat → Bool) :
    ∀ (xs : List α) (ys : List Nat) (i : Nat), xs.map f <+: ys →
      (filterOutIndices p i xs).map f <+: filterOutIndices p i ys := by
  intro xs
  induction xs with
  | nil =>
    intro ys i _
    exact List.nil_prefix
  | cons x xs' ih =>
    intro ys i hpre
    obtain ⟨t, ht⟩ := hpre
    have hys : ys = f x :: (xs'.map f ++ t) := by simpa using ht.symm
    subst hys
    by_cases hp : p i = true
    · simp only [filterOutIndices, if_pos hp]
      exact ih (xs'.map f ++ t) (i + 1) ⟨t, rfl⟩
    · simp only [filterOutIndices, if_neg hp, List.map_cons]
      exact List.cons_prefix_cons.mpr ⟨rfl, ih (xs'.map f ++ t) (i + 1) ⟨t, rfl⟩⟩

/-- C8: the cleanup keeps one slot per run of equal consecutive revisions
(the oldest), so the cleaned revision list equals the consecutive dedup of
the input and has no two equal neighbours; the same index set is dropped
from every history, and prefix alignment of a result sequence with the
revision list is preserved; an index is marked for removal exactly when its
revision equals the next (older) one. -/
theorem cleanDuplicateBuilds_spec :
    (∀ (revs : List Nat) (hs : List TestHistory),
      (cleanDuplicateBuilds revs hs).1 = dedupConsecutiveSpec revs ∧
      List.Chain' (fun a b : Nat => a ≠ b) (cleanDuplicateBuilds revs hs).1 ∧
      (∀ h ∈ hs,
        TestHistory.mk h.context h.testPath
          (filterOutIndices (shouldRemoveIndex revs) 0 h.lastResults) h.expectation
          ∈ (cleanDuplicateBuilds revs hs).2) ∧
      (∀ results : List TestResult,
        results.map TestResult.webkitRevision <+: revs →
        (filterOutIndices (shouldRemoveIndex revs) 0 results).map
            TestResult.webkitRevision <+: (cleanDuplicateBuilds revs hs).1)) ∧
    (∀ (revs : List Nat) (i : Nat), shouldRemoveIndex revs i = true ↔
      ∃ a, revs[i]? = some a ∧ revs[i + 1]? = some a) := by
  constructor
  · intro revs hs
    have hclean : (cleanDuplicateBuilds revs hs).1 = dedupConsecutiveSpec revs :=
      filterOutIndices_drop_eq revs revs 0 rfl
    refine ⟨hclean, ?_, ?_, ?_⟩
    · rw [hclean]
      exact dedupConsecutiveSpec_chain revs
    · intro h hmem
      exact List.mem_map_of_mem _ hmem
    · intro results hpre
      exact filterOutIndices_map_isPrefixOf TestResult.webkitRevision
        (shouldRemoveIndex revs) results revs 0 hpre
  · intro revs i
    cases hi : revs[i]? with
    | none => simp [shouldRemoveIndex, hi]
    | some a =>
      cases hi1 : revs[i + 1]? with
      | none => simp [shouldRemoveIndex, hi, hi1]
      | some b =>
        simp only [shouldRemoveIndex, hi, hi1, beq_iff_eq, Option.some.injEq]
        constructor
        · intro hab
          exact ⟨a, rfl, hab.symm⟩
        · rintro ⟨c, rfl, hc⟩
          exact hc.symm

/-- C8 witness: alignment preservation on a concrete duplicated window. -/
theorem cleanDuplicateBuilds_spec_witness :
    (filterOutIndices (shouldRemoveIndex [10, 10, 5]) 0
        [TestResult.mk 10 TestOutcome.Pass]).map TestResult.webkitRevision <+:
      (cleanDuplicateBuilds [10, 10, 5] []).1 :=
  (cleanDuplicateBuilds_spec.1 [10, 10, 5] []).2.2.2
    [TestResult.mk 10 TestOutcome.Pass] (by decide)

/-- JS String.prototype.trim on character lists. -/
def trimChars (cs : List Char) : List Char :=
  ((cs.dropWhile Char.isWhitespace).reverse.dropWhile Char.isWhitespace).reverse

/-- The longest suffix whose characters satisfy the predicate. -/
def takeTrailing (p : Char → Bool) (cs : List Char) : List Char :=
  (cs.reverse.takeWhile p).reverse

/-- Drop the longest suffix whose characters satisfy the predicate. -/
def dropTrailing (p : Char → Bool) (cs : List Char) : List Char :=
  (cs.reverse.dropWhile p).reverse

/-- consumeWordToken from parse-expectations: trim, then split off the
trailing run of non-whitespace characters; an empty line yields no token. -/
def consumeWordToken (cs : List Char) : List Char × Option (List Char) :=
  let line := trimChars cs
  if line.isEmpty then (line, none)
  else
    (dropTrailing Char.isWhitespace (dropTrailing (fun c => !c.isWhitespace) line),
     some (takeTrailing (fun c => !c.isWhitespace) line))

/-- consumeBracketedEntityToken from parse-expectations, emulating its
regular expression.  The trimmed line must end in a closing bracket; the
matched opening bracket is the first one after the last other closing
bracket; the content between them must hold at least one character.  The
returned token is the trimmed content, except that an all-whitespace content
backtracks the lazy one-or-more group down to its final character.  Without
a match the trimmed line is returned untouched. -/
def consumeBracketedEntityToken (cs : List Char) : List Char × Option (List Char) :=
  let line := trimChars cs
  if line.isEmpty then (line, none)
  else if line.getLastD ' ' = ']' then
    let body := line.dropLast
    let tailPart := takeTrailing (fun c => c != ']') body
    let beforeBracket := tailPart.takeWhile (fun c => c != '[')
    match tailPart.dropWhile (fun c => c != '[') with
    | [] => (line, none)
    | _ :: content =>
      if content.isEmpty then (line, none)
      else
        (dropTrailing Char.isWhitespace
          (dropTrailing (fun c => c != ']') body ++ beforeBracket),
         some (if (trimChars content).isEmpty then [content.getLastD ' ']
           else trimChars content))
  else (line, none)

/-- JS String.prototype.split with a one-character separator: every
occurrence delimits a possibly empty field. -/
def splitOnChar (sep : Char) : List Char → List (List Char)
  | [] => [[]]
  | c :: rest =>
    match splitOnChar sep rest with
    | [] => [[c]]
    | t :: ts => if c = sep then [] :: t :: ts else (c :: t) :: ts

/-- Name-keyed lookup in the TestOutcome enum object, as performed on the
tokens of the outcome bracket. -/
def parseTestOutcomeName (t : List Char) : Option TestOutcome :=
  if t = "NoData".toList then some TestOutcome.NoData
  else if t = "Pass".toList then some TestOutcome.Pass
  else if t = "Failure".toList then some TestOutcome.Failure
  else if t = "Skip".toList then some TestOutcome.Skip
  else if t = "WontFix".toList then some TestOutcome.WontFix
  else if t = "Timeout".toList then some TestOutcome.Timeout
  else if t = "ImageOnlyFailure".toList then some TestOutcome.ImageOnlyFailure
  else if t = "Slow".toList then some TestOutcome.Slow
  else if t = "Crash".toList then some TestOutcome.Crash
  else if t = "Missing".toList then some TestOutcome.Missing
  else if t = "DumpJSConsoleLogInStdErr".toList then
    some TestOutcome.DumpJSConsoleLogInStdErr
  else none

/-- Name-keyed lookup in the BuildType enum object. -/
def parseBuildTypeName (t : List Char) : Option BuildType :=
  if t = "Debug".toList then some BuildType.Debug
  else if t = "Release".toList then some BuildType.Release
  else none

/-- The fatal diagnostic for an unknown outcome token, naming the line. -/
def unknownOutcomeMessage (lineNo : Nat) (t : List Char) : String :=
  "Unknown outcome at line " ++ toString lineNo ++ ": \"" ++ String.mk t ++ "\""

/-- The fatal diagnostic for an unknown build type token, naming the line. -/
def unknownBuildTypeMessage (lineNo : Nat) (t : List Char) : String :=
  "Unknown build type at line " ++ toString lineNo ++ ": \"" ++ String.mk t ++ "\""

/-- The fatal diagnostic for leftover line content, naming the line. -/
def unparsedLineMessage (lineNo : Nat) (t : List Char) : String :=
  "Unparsed line contents remain at line " ++ toString lineNo ++ ": \"" ++
    String.mk t ++ "\""

/-- The compile-time flag of parse-expectations. -/
def dontShowUnexpectedPasses : Bool := false

/-- The token list of an outcome bracket: split on single spaces, trim each
piece, drop the empty ones. -/
def outcomeTokens (s : List Char) : List (List Char) :=
  ((splitOnChar ' ' s).map trimChars).filter (fun t => !t.isEmpty)

/-- Map the outcome-name lookup over the tokens, failing on the first
unknown name exactly as the throwing ensure call does. -/
def lookupOutcomes (lineNo : Nat) : List (List Char) → Except String (List TestOutcome)
  | [] => Except.ok []
  | t :: rest =>
    match parseTestOutcomeName t with
    | none => Except.error (unknownOutcomeMessage lineNo t)
    | some o =>
      match lookupOutcomes lineNo rest with
      | Except.error e => Except.error e
      | Except.ok os => Except.ok (o :: os)

/-- Insertion into the JS Set model: membership test, first occurrence kept. -/
def insertOutcome (acc : List TestOutcome) (o : TestOutcome) : List TestOutcome :=
  if o ∈ acc then acc else acc ++ [o]

/-- The JS Set constructor on an array of outcomes. -/
def listToOutcomeSet (os : List TestOutcome) : List TestOutcome :=
  os.foldl insertOutcome []

/-- The outcome-set block of parseExpectations: consume the optional
trailing outcome bracket; with none present the set defaults to Skip, an
unknown name is fatal, the DumpJSConsoleLogInStdErr marker is discarded,
and an empty resulting set defaults to Pass. -/
def parseOutcomesFromLine (lineNo : Nat) (line : List Char) :
    Except String (List Char × List TestOutcome) :=
  match consumeBracketedEntityToken line with
  | (rest, some s) =>
    if s.isEmpty then Except.ok (rest, [TestOutcome.Skip])
    else
      match lookupOutcomes lineNo (outcomeTokens s) with
      | Except.error e => Except.error e
      | Except.ok os =>
        let withoutMarker := os.filter (fun o => o != TestOutcome.DumpJSConsoleLogInStdErr)
        let asSet := listToOutcomeSet withoutMarker
        let withDefault := if asSet.isEmpty then [TestOutcome.Pass] else asSet
        let final := if dontShowUnexpectedPasses then
            insertOutcome withDefault TestOutcome.Pass
          else withDefault
        Except.ok (rest, final)
  | (rest, none) => Except.ok (rest, [TestOutcome.Skip])

/-- Digit run to number, as parseInt does on the matched digits. -/
def digitsToNat (ds : List Char) : Nat :=
  ds.foldl (fun acc c => acc * 10 + (c.toNat - Char.toNat '0')) 0

/-- The bug reference pattern of parse-expectations.  The dot of the source
regular expression is unescaped and matches any character; after the second
slash come one or more digits and then optional whitespace. -/
def matchBugPattern (cs : List Char) : Option Nat :=
  match cs with
  | 'w' :: 'e' :: 'b' :: 'k' :: 'i' :: 't' :: _ :: 'o' :: 'r' :: 'g' ::
      '/' :: 'b' :: '/' :: rest =>
    let ds := rest.takeWhile Char.isDigit
    if !ds.isEmpty && (rest.drop ds.length).all Char.isWhitespace then
      some (digitsToNat ds)
    else none
  | _ => none

theorem dropWhile_length_le (p : Char → Bool) (l : List Char) :
    (l.dropWhile p).length ≤ l.length :=
  (List.dropWhile_sublist p).length_le

theorem trimChars_length_le (cs : List Char) : (trimChars cs).length ≤ cs.length := by
  have h1 : ((cs.dropWhile Char.isWhitespace).reverse.dropWhile Char.isWhitespace).length ≤
      (cs.dropWhile Char.isWhitespace).reverse.length :=
    dropWhile_length_le _ _
  have h2 : (cs.dropWhile Char.isWhitespace).length ≤ cs.length :=
    dropWhile_length_le _ _
  simp only [trimChars, List.length_reverse] at *
  omega

theorem dropWhile_head_false {α : Type} (p : α → Bool) :
    ∀ (l : List α) (x : α) (xs : List α), l.dropWhile p = x :: xs → p x = false := by
  intro l
  induction l with
  | nil =>
    intro x xs h
    simp at h
  | cons a l' ih =>
    intro x xs h
    by_cases hpa : p a = true
    · rw [List.dropWhile_cons, if_pos hpa] at h
      exact ih x xs h
    · rw [List.dropWhile_cons, if_neg hpa] at h
      obtain ⟨rfl, _⟩ := List.cons.inj h
      simpa using hpa

theorem dropTrailing_length_le (p : Char → Bool) (l : List Char) :
    (dropTrailing p l).length ≤ l.length := by
  have := dropWhile_length_le p l.reverse
  simpa [dropTrailing] using this

theorem dropTrailing_length_lt (p : Char → Bool) (l : List Char) (y : Char)
    (ys : List Char) (hrev : l.reverse = y :: ys) (hy : p y = true) :
    (dropTrailing p l).length < l.length := by
  have hlen : l.length = ys.length + 1 := by
    have := congrArg List.length hrev
    simpa using this
  have hdw : (l.reverse.dropWhile p).length ≤ ys.length := by
    rw [hrev, List.dropWhile_cons, if_pos hy]
    exact dropWhile_length_le p ys
  simp only [dropTrailing, List.length_reverse]
  omega

theorem consumeWordToken_fst_length_lt (cs : List Char) (hne : ¬ cs = []) :
    (consumeWordToken cs).1.length < cs.length := by
  have hcs : 0 < cs.length := List.length_pos.mpr hne
  by_cases htr : (trimChars cs).isEmpty = true
  · simp only [consumeWordToken]
    rw [if_pos htr]
    have : (trimChars cs).length = 0 := by
      rw [List.isEmpty_iff] at htr
      simp [htr]
    show (trimChars cs).length < cs.length
    omega
  · simp only [consumeWordToken]
    rw [if_neg htr]
    show (dropTrailing Char.isWhitespace
      (dropTrailing (fun c => !c.isWhitespace) (trimChars cs))).length < cs.length
    have hrevne : (trimChars cs).reverse ≠ [] := by
      intro hcon
      apply htr
      rw [List.isEmpty_iff]
      simpa using congrArg List.reverse hcon
    obtain ⟨y, ys, hrev⟩ := List.exists_cons_of_ne_nil hrevne
    have hy : Char.isWhitespace y = false := by
      have hrev2 : (trimChars cs).reverse =
          List.dropWhile Char.isWhitespace ((cs.dropWhile Char.isWhitespace).reverse) := by
        simp [trimChars]
      exact dropWhile_head_false Char.isWhitespace _ y ys (hrev2.symm.trans hrev)
    have hstep1 : (dropTrailing (fun c => !c.isWhitespace) (trimChars cs)).length <
        (trimChars cs).length := by
      apply dropTrailing_length_lt (fun c => !c.isWhitespace) (trimChars cs) y ys hrev
      simp [hy]
    have hstep2 : (dropTrailing Char.isWhitespace
        (dropTrailing (fun c => !c.isWhitespace) (trimChars cs))).length ≤
        (dropTrailing (fun c => !c.isWhitespace) (trimChars cs)).length :=
      dropTrailing_length_le _ _
    have hstep3 : (trimChars cs).length ≤ cs.length := trimChars_length_le cs
    omega

/-- The bug reference loop of parseExpectations: consume word tokens from
the right until the line is exhausted, collecting the tokens that match the
bug reference pattern. -/
def consumeBugIdsGo (line : List Char) (acc : List Nat) : List Char × List Nat :=
  if _hempty : line = [] then (line, acc)
  else
    consumeBugIdsGo (consumeWordToken line).1
      (match (consumeWordToken line).2 with
       | some bugString =>
         match matchBugPattern bugString with
         | some bugId => acc ++ [bugId]
         | none => acc
       | none => acc)
termination_by line.length
decreasing_by
  exact consumeWordToken_fst_length_lt line _hempty

/-- The build-variant bracket handling of parseExpectations: an absent or
empty bracket leaves the constraint unset, an unknown name is fatal. -/
def parseBuildTypeConstraint (lineNo : Nat) :
    Option (List Char) → Except String (Option BuildType)
  | some b =>
    if b.isEmpty then Except.ok none
    else
      match parseBuildTypeName b with
      | some bt => Except.ok (some bt)
      | none => Except.error (unknownBuildTypeMessage lineNo b)
  | none => Except.ok none

/-- One line of parseExpectations: strip the comment, trim, skip blank
lines, consume the outcome bracket, the test path word (missing path skips
the line with a warning), the variant bracket, and the bug references; any
leftover content would be fatal (the loop always drains the line). -/
def parseExpectationLine (lineNo : Nat) (rawLine : List Char) :
    Except String (Option TestExpectation) :=
  let line0 := trimChars (rawLine.takeWhile (fun c => c != '#'))
  if line0.isEmpty then Except.ok none
  else
    match parseOutcomesFromLine lineNo line0 with
    | Except.error e => Except.error e
    | Except.ok (line1, outcomes) =>
      match consumeWordToken line1 with
      | (_, none) => Except.ok none
      | (line2, some testPathString) =>
        if testPathString.isEmpty then Except.ok none
        else
          match parseBuildTypeConstraint lineNo
              (consumeBracketedEntityToken line2).2 with
          | Except.error e => Except.error e
          | Except.ok buildTypeConstraint =>
            match consumeBugIdsGo (consumeBracketedEntityToken line2).1 [] with
            | (line4, bugIds) =>
              if !line4.isEmpty then
                Except.error (unparsedLineMessage lineNo line4)
              else
                Except.ok (some (TestExpectation.mk (Int.ofNat lineNo)
                  (Path.mk ((splitOnChar '/' testPathString).map String.mk))
                  bugIds outcomes buildTypeConstraint))

/-- The line loop of parseExpectations, with one-based line numbers. -/
def parseExpectationsGo (lineNo : Nat) :
    List (List Char) → Except String (List TestExpectation)
  | [] => Except.ok []
  | l :: rest =>
    match parseExpectationLine lineNo l with
    | Except.error e => Except.error e
    | Except.ok o =>
      match parseExpectationsGo (lineNo + 1) rest with
      | Except.error e => Except.error e
      | Except.ok exps =>
        Except.ok
          (match o with
           | some e => e :: exps
           | none => exps)

/-- parseExpectations from parse-expectations, on the file text (the file
read itself is outside the engine). -/
def parseExpectations (fileText : List Char) : Except String (List TestExpectation) :=
  parseExpectationsGo 1 (splitOnChar '\n' fileText)

theorem lookupOutcomes_error_of_unknown (lineNo : Nat) :
    ∀ ts : List (List Char), (∃ t ∈ ts, parseTestOutcomeName t = none) →
      ∃ t0 ∈ ts, parseTestOutcomeName t0 = none ∧
        lookupOutcomes lineNo ts = Except.error (unknownOutcomeMessage lineNo t0) := by
  intro ts
  induction ts with
  | nil =>
    rintro ⟨t, ht, -⟩
    simp at ht
  | cons t rest ih =>
    rintro ⟨t', ht', hnone⟩
    cases hl : parseTestOutcomeName t with
    | none =>
      exact ⟨t, List.mem_cons_self _ _, hl, by simp [lookupOutcomes, hl]⟩
    | some o =>
      have ht'' : t' ∈ rest := by
        rcases List.mem_cons.mp ht' with rfl | hmem
        · rw [hl] at hnone
          exact absurd hnone (by simp)
        · exact hmem
      obtain ⟨t0, ht0, h0, herr⟩ := ih ⟨t', ht'', hnone⟩
      refine ⟨t0, List.mem_cons_of_mem _ ht0, h0, ?_⟩
      simp [lookupOutcomes, hl, herr]

theorem lookupOutcomes_all_marker (lineNo : Nat) :
    ∀ ts : List (List Char),
      (∀ t ∈ ts, parseTestOutcomeName t = some TestOutcome.DumpJSConsoleLogInStdErr) →
      lookupOutcomes lineNo ts =
        Except.ok (ts.map (fun _ => TestOutcome.DumpJSConsoleLogInStdErr)) := by
  intro ts
  induction ts with
  | nil =>
    intro _
    rfl
  | cons t rest ih =>
    intro hall
    have hl := hall t (List.mem_cons_self _ _)
    have hrec := ih (fun t' ht' => hall t' (List.mem_cons_of_mem _ ht'))
    simp [lookupOutcomes, hl, hrec]

theorem parseOutcomesFromLine_ne_nil (lineNo : Nat) (line rest : List Char)
    (os : List TestOutcome)
    (h : parseOutcomesFromLine lineNo line = Except.ok (rest, os)) : os ≠ [] := by
  simp only [parseOutcomesFromLine] at h
  split at h
  · split at h
    · obtain ⟨-, h2⟩ := Prod.mk.inj (Except.ok.inj h)
      intro hcon
      rw [hcon] at h2
      simp at h2
    · split at h
      · simp at h
      · simp only [dontShowUnexpectedPasses, Bool.false_eq_true, if_false] at h
        obtain ⟨-, h2⟩ := Prod.mk.inj (Except.ok.inj h)
        rw [← h2]
        split
        · simp
        · rename_i hne
          simpa using hne
  · obtain ⟨-, h2⟩ := Prod.mk.inj (Except.ok.inj h)
    intro hcon
    rw [hcon] at h2
    simp at h2

theorem parseExpectationLine_outcomes_ne_nil (lineNo : Nat) (rawLine : List Char)
    (e : TestExpectation)
    (h : parseExpectationLine lineNo rawLine = Except.ok (some e)) :
    e.expectedOutcomes ≠ [] := by
  simp only [parseExpectationLine] at h
  split at h
  · simp at h
  · split at h
    · simp at h
    · rename_i line1 outcomes heq
      split at h
      · simp at h
      · split at h
        · simp at h
        · split at h
          · simp at h
          · split at h
            · simp at h
            · obtain hsome := Except.ok.inj h
              obtain rfl : _ = e := Option.some.inj hsome
              exact parseOutcomesFromLine_ne_nil lineNo _ line1 outcomes heq

theorem parseExpectationsGo_outcomes_ne_nil :
    ∀ (lines : List (List Char)) (lineNo : Nat) (exps : List TestExpectation),
      parseExpectationsGo lineNo lines = Except.ok exps →
      ∀ e ∈ exps, e.expectedOutcomes ≠ [] := by
  intro lines
  induction lines with
  | nil =>
    intro lineNo exps h e he
    simp only [parseExpectationsGo] at h
    obtain rfl : ([] : List TestExpectation) = exps := Except.ok.inj h
    simp at he
  | cons l rest ih =>
    intro lineNo exps h e he
    simp only [parseExpectationsGo] at h
    cases hline : parseExpectationLine lineNo l with
    | error err =>
      rw [hline] at h
      simp at h
    | ok o =>
      rw [hline] at h
      cases hrec : parseExpectationsGo (lineNo + 1) rest with
      | error err =>
        rw [hrec] at h
        simp at h
      | ok exps' =>
        rw [hrec] at h
        cases o with
        | none =>
          have hx : exps' = exps := by simpa using h
          subst hx
          exact ih (lineNo + 1) exps' hrec e he
        | some e0 =>
          have hx : e0 :: exps' = exps := by simpa using h
          rw [← hx] at he
          rcases List.mem_cons.mp he with rfl | hmem
          · exact parseExpectationLine_outcomes_ne_nil lineNo l e hline
          · exact ih (lineNo + 1) exps' hrec e hmem

/-- C6: the outcome-set rule of the expectation parser.  An absent trailing
bracket silently yields the Skip singleton; a present bracket holding an
unknown outcome name fails with the fatal message naming the line; a present
bracket whose recognized tokens reduce to the empty set (only the discarded
DumpJSConsoleLogInStdErr marker) yields the Pass singleton; and every
expectation produced by parseExpectations has a nonempty accepted set. -/
theorem parseExpectations_outcome_rule :
    (∀ (lineNo : Nat) (line rest : List Char),
      consumeBracketedEntityToken line = (rest, none) →
      parseOutcomesFromLine lineNo line = Except.ok (rest, [TestOutcome.Skip])) ∧
    (∀ (lineNo : Nat) (line rest content : List Char),
      consumeBracketedEntityToken line = (rest, some content) →
      (∃ t ∈ outcomeTokens content, parseTestOutcomeName t = none) →
      ∃ t0 ∈ outcomeTokens content, parseTestOutcomeName t0 = none ∧
        parseOutcomesFromLine lineNo line =
          Except.error (unknownOutcomeMessage lineNo t0)) ∧
    (∀ (lineNo : Nat) (line rest content : List Char),
      consumeBracketedEntityToken line = (rest, some content) →
      ¬ content = [] →
      (∀ t ∈ outcomeTokens content,
        parseTestOutcomeName t = some TestOutcome.DumpJSConsoleLogInStdErr) →
      parseOutcomesFromLine lineNo line = Except.ok (rest, [TestOutcome.Pass])) ∧
    (∀ (fileText : List Char) (exps : List TestExpectation),
      parseExpectations fileText = Except.ok exps →
      ∀ e ∈ exps, e.expectedOutcomes ≠ []) := by
  refine ⟨?_, ?_, ?_, ?_⟩
  · intro lineNo line rest hbr
    simp [parseOutcomesFromLine, hbr]
  · intro lineNo line rest content hbr hex
    obtain ⟨t0, ht0, h0, herr⟩ :=
      lookupOutcomes_error_of_unknown lineNo (outcomeTokens content) hex
    refine ⟨t0, ht0, h0, ?_⟩
    have hcne : ¬ content = [] := by
      intro hcon
      rw [hcon] at ht0
      have : outcomeTokens [] = [] := rfl
      rw [this] at ht0
      simp at ht0
    have hemp : content.isEmpty = false := by
      cases content with
      | nil => exact absurd rfl hcne
      | cons c cs => rfl
    simp [parseOutcomesFromLine, hbr, hemp, herr]
  · intro lineNo line rest content hbr hcne hall
    have hlook := lookupOutcomes_all_marker lineNo (outcomeTokens content) hall
    have hemp : content.isEmpty = false := by
      cases content with
      | nil => exact absurd rfl hcne
      | cons c cs => rfl
    have hfil : ((outcomeTokens content).map
        (fun _ => TestOutcome.DumpJSConsoleLogInStdErr)).filter
        (fun o => o != TestOutcome.DumpJSConsoleLogInStdErr) = [] := by
      apply List.filter_eq_nil_iff.mpr
      intro a ha
      obtain ⟨-, -, rfl⟩ := List.mem_map.mp ha
      simp
    simp [parseOutcomesFromLine, hbr, hemp, hlook, hfil, listToOutcomeSet,
      dontShowUnexpectedPasses]
  · intro fileText exps h e he
    exact parseExpectationsGo_outcomes_ne_nil (splitOnChar '\n' fileText) 1 exps h e he

/-- C6 witness: a bracketless line defaults to the Skip singleton. -/
theorem parseExpectations_outcome_rule_witness :
    parseOutcomesFromLine 3 ("fast/css".toList) =
      Except.ok (("fast/css".toList), [TestOutcome.Skip]) :=
  parseExpectations_outcome_rule.1 3 ("fast/css".toList) ("fast/css".toList)
    (by decide)

end Gardener
